import Mathlib

/-!
# Verification of the survey-platform backend core logic

This file embeds the behavioural core of the survey-platform backend
(`main.py` together with the data shapes of `schemas.py`) into Lean:

* the CSV dataset ingestion of `upload_dataset` (DictReader-style row
  parsing, column inference from the first data row, per-column
  first-occurrence distinct-value lists),
* the response-submission policy of `submit_response`
  (auth requirement, per-user rate limiting),
* the response export of `export_csv` / `iter_csv` (dynamic headers,
  per-response answer maps with last-write-wins, id-then-text lookup).

Python dictionaries are modelled as insertion-ordered association lists
(`PyDict`) with Python's update-in-place / append-if-fresh insertion and
`dict.get` lookup semantics.
-/

namespace SurveyPlatform

/-! ### Python dict model: insertion-ordered association lists -/

/-- A Python `dict`, modelled as an insertion-ordered association list. -/
abbrev PyDict (κ α : Type) := List (κ × α)

/-- Python `d[k] = v`: replace the value in place when the key is present,
otherwise append the new binding at the end. -/
def insertA {κ α : Type} [DecidableEq κ] : PyDict κ α → κ → α → PyDict κ α
  | [], k, v => [(k, v)]
  | p :: t, k, v => if p.1 = k then (p.1, v) :: t else p :: insertA t k v

/-- Python `d.get(k)` (with `none` for an absent key). -/
def getA {κ α : Type} [DecidableEq κ] : PyDict κ α → κ → Option α
  | [], _ => none
  | p :: t, k => if p.1 = k then some p.2 else getA t k

/-- Python `list(d.keys())`: keys in insertion order. -/
def keysA {κ α : Type} (d : PyDict κ α) : List κ := d.map Prod.fst

/-- The value of the last entry of `ps` carrying key `k` (if any):
the "later entries overwrite earlier ones" reading of a sequence of
dict insertions. -/
def lastWins {κ α : Type} [DecidableEq κ] : List (κ × α) → κ → Option α
  | [], _ => none
  | p :: t, k =>
    match lastWins t k with
    | some v => some v
    | none => if p.1 = k then some p.2 else none

/-- Insert a whole list of bindings, in order, into a dict. -/
def insFold {κ α : Type} [DecidableEq κ] (d : PyDict κ α) (ps : List (κ × α)) : PyDict κ α :=
  ps.foldl (fun d p => insertA d p.1 p.2) d

/-! ### CSV ingestion (`upload_dataset` in `main.py`) -/

/-- A key of a `csv.DictReader` row dict: a header column name, or the
implicit `restkey` `None` under which extra fields beyond the header are
collected. -/
inductive DKey where
  | col : String → DKey
  | rest : DKey
deriving DecidableEq

/-- A value of a `csv.DictReader` row dict: a field string, the `restval`
`None` for columns the row did not supply, or the list of extra fields
stored under the `restkey`. -/
inductive DVal where
  | cell : String → DVal
  | missing : DVal
  | extras : List String → DVal
deriving DecidableEq

/-- Python `dict(zip(fieldnames, row))`: the zipped bindings inserted in order
into an empty dict. -/
def zipDict (fns record : List String) : PyDict DKey DVal :=
  insFold [] ((fns.zip record).map (fun p => (DKey.col p.1, DVal.cell p.2)))

/-- Python `csv.DictReader` turning one raw record into a row dict, given the
header field names: `dict(zip(fieldnames, row))`, then collect extra
fields of long rows under `restkey = None`, or pad short rows with
`restval = None`. -/
def dictRow (fns record : List String) : PyDict DKey DVal :=
  if fns.length < record.length then
    insertA (zipDict fns record) DKey.rest (DVal.extras (record.drop fns.length))
  else if record.length < fns.length then
    insFold (zipDict fns record)
      ((fns.drop record.length).map (fun c => (DKey.col c, DVal.missing)))
  else zipDict fns record

/-- Python `rows = list(csv.DictReader(...))` over an already-tokenised record
stream: the first record is the header, blank records among the data are
skipped, every other record becomes a row dict. -/
def parseRows (records : List (List String)) : List (PyDict DKey DVal) :=
  match records with
  | [] => []
  | fns :: body => (body.filter (fun r => decide (r ≠ []))).map (dictRow fns)

/-- Python `r.get(c)` on a row dict: an absent key reads as `None`,
i.e. as `DVal.missing`. -/
def pyRowGet (r : PyDict DKey DVal) (c : DKey) : DVal :=
  match getA r c with
  | some v => v
  | none => DVal.missing

/-- The body of `if v is not None and v not in distincts[c]: distincts[c].append(v)`
as a transformation of one column's distinct list. -/
def distinctStep (l : List DVal) (v : DVal) : List DVal :=
  if v ≠ DVal.missing ∧ v ∉ l then l ++ [v] else l

/-- One iteration of the inner `for c in columns` loop of `upload_dataset`. -/
def distinctColStep (r : PyDict DKey DVal) (d : PyDict DKey (List DVal)) (c : DKey) :
    PyDict DKey (List DVal) :=
  match getA d c with
  | some l => if pyRowGet r c ≠ DVal.missing ∧ pyRowGet r c ∉ l then insertA d c (l ++ [pyRowGet r c]) else d
  | none => d

/-- The distinct-value computation of `upload_dataset`:
`distincts = {c: [] for c in columns}` followed by the nested
`for r in rows: for c in columns:` loop. -/
def buildDistincts (columns : List DKey) (rows : List (PyDict DKey DVal)) :
    PyDict DKey (List DVal) :=
  rows.foldl (fun d r => columns.foldl (distinctColStep r) d)
    (columns.foldl (fun d c => insertA d c ([] : List DVal)) [])

inductive UploadError where
  | UnsupportedFormat : UploadError
  | EmptyInput : UploadError
deriving DecidableEq

/-- The analysis part of the `upload_dataset` response:
`{"columns": columns, "rows": len(rows), "distincts": distincts}`. -/
structure UploadResult where
  columns : List DKey
  rowCount : Nat
  distincts : PyDict DKey (List DVal)
deriving DecidableEq

/-- Python `file.filename.lower().endswith(".csv")`, implemented over the
character list (so that concrete instances evaluate by kernel
reduction). -/
def lowerEndsWithCsv (s : String) : Bool :=
  (".csv".data.reverse).isPrefixOf ((s.data.map Char.toLower).reverse)

/-- Handler `upload_dataset` from `main.py`, over an already-tokenised record
stream: reject non-`.csv` filenames, parse the records DictReader-style,
reject an empty row list, infer `columns` from the keys of the first row
dict, and compute row count and per-column distinct lists. -/
def upload (filename : String) (records : List (List String)) :
    Except UploadError UploadResult :=
  if lowerEndsWithCsv filename = false then
    .error .UnsupportedFormat
  else
    match parseRows records with
    | [] => .error .EmptyInput
    | r0 :: rest =>
      let columns := keysA r0
      .ok ⟨columns, (r0 :: rest).length, buildDistincts columns (r0 :: rest)⟩

/-! ### Spec-side characterisation of distinct lists -/

/-- Claim-side restatement, for comparison with `buildDistincts`: "when a
row supplies a non-null value for that column not already present in the
column's distinct collection, append it, preserving first-occurrence
order" — first-occurrence deduplication of a column's value sequence. -/
def specFirstOccurrence (acc : List DVal) : List DVal → List DVal
  | [] => acc
  | v :: vs =>
    if v ≠ DVal.missing ∧ v ∉ acc then specFirstOccurrence (acc ++ [v]) vs
    else specFirstOccurrence acc vs

/-! ### Response submission policy (`submit_response` in `main.py`) -/

/-- Python truthiness of an optional string: `None` and `""` are falsy. -/
def truthyStr (o : Option String) : Bool :=
  match o with
  | none => false
  | some s => decide (s ≠ "")

/-- Python truthiness of the optional per-user response limit:
`None` and `0` are falsy. -/
def truthyLimit (o : Option Int) : Bool :=
  match o with
  | none => false
  | some n => decide (n ≠ 0)

/-- The survey settings fields read by `submit_response`
(from `SurveySettings` in `schemas.py`). -/
structure SubmitSettings where
  require_auth : Bool
  response_limit_per_user : Option Int
deriving DecidableEq

/-- The fields of a candidate `SurveyResponse` read by `submit_response`. -/
structure SubmitPayload where
  submitted_by : Option String
  anonymous : Bool
deriving DecidableEq

inductive SubmitError where
  | AuthRequired : SubmitError
  | RateLimited : SubmitError
deriving DecidableEq

/-- Handler `submit_response` from `main.py`, given the count of previously stored
responses for this survey by this submitter: raise 403 when
`require_auth and not payload.submitted_by and not payload.anonymous`,
else raise 429 when `limit and payload.submitted_by` and
`count >= int(limit)`, else accept. -/
def submit_response (settings : SubmitSettings) (payload : SubmitPayload)
    (priorCount : Nat) : Except SubmitError Unit :=
  if settings.require_auth = true ∧ truthyStr payload.submitted_by = false ∧
      payload.anonymous = false then
    .error .AuthRequired
  else if truthyLimit settings.response_limit_per_user = true ∧
      truthyStr payload.submitted_by = true ∧
      settings.response_limit_per_user.getD 0 ≤ (priorCount : Int) then
    .error .RateLimited
  else .ok ()

/-! ### CSV export (`export_csv` / `iter_csv` in `main.py`) -/

/-- A survey question as read by the exporter (`Question` in `schemas.py`):
`id` and `text` are required fields, `export_header` is optional. -/
structure Question where
  id : String
  text : String
  export_header : Option String
deriving DecidableEq

/-- One answer entry of a response: an open map from which the exporter
reads the optional fields `questionId`, `id`, `text` and `value`. -/
structure Ans where
  questionId : Option String
  id : Option String
  text : Option String
  value : Option String
deriving DecidableEq

/-- A stored survey response as read by the exporter: the answer list plus
the `submitted_by`, `anonymous` and (already stringified) `created_at`
fields. -/
structure Response where
  answers : List Ans
  submitted_by : Option String
  anonymous : Bool
  created_at : String
deriving DecidableEq

/-- Python `x or y` on optional strings: `None` and `""` are falsy. -/
def pyOrS (a b : Option String) : Option String :=
  match a with
  | some s => if s = "" then b else some s
  | none => b

/-- Python `str()` of the boolean cell written for `anonymous`. -/
def boolStr (b : Bool) : String := if b then "True" else "False"

/-- Python `q.get("export_header") or q.get("text") or q.get("id")`. -/
def headerLabel (q : Question) : Option String :=
  pyOrS (pyOrS q.export_header (some q.text)) (some q.id)

/-- The header row written by `iter_csv`: one label per question in survey
order, then the three fixed meta headers (a `None` label is written as the
empty cell). -/
def headerRow (questions : List Question) : List String :=
  questions.map (fun q => (headerLabel q).getD "") ++
    ["submitted_by", "anonymous", "created_at"]

/-- Python `a.get("questionId") or a.get("id") or a.get("text")`: the key under
which one answer entry lands in the per-response answer map. -/
def ansKey (a : Ans) : Option String :=
  pyOrS (pyOrS a.questionId a.id) a.text

/-- The dict comprehension building `ans_map`: each answer entry inserted
under its resolved key with its `value`. -/
def ansDict (answers : List Ans) : PyDict (Option String) (Option String) :=
  insFold [] (answers.map (fun a => (ansKey a, a.value)))

/-- Python `ans_map.get(k)`: `None` both for an absent key and for a key
stored with value `None`. -/
def pyGetFlat (d : PyDict (Option String) (Option String)) (k : Option String) :
    Option String :=
  match getA d k with
  | some v => v
  | none => none

/-- The cell computed by `iter_csv` for one question of one response:
`val = ans_map.get(q.get("id"))`, then `if val is None: val = ans_map.get(q.get("text"))`,
then `val if val is not None else ""`. -/
def cellFor (d : PyDict (Option String) (Option String)) (q : Question) : String :=
  match pyGetFlat d (some q.id) with
  | some v => v
  | none =>
    match pyGetFlat d (some q.text) with
    | some v => v
    | none => ""

/-- One data row written by `iter_csv` for a response: the per-question
cells, then the submitter (absent written as empty), the anonymity flag
and the creation timestamp. -/
def rowFor (questions : List Question) (r : Response) : List String :=
  questions.map (cellFor (ansDict r.answers)) ++
    [r.submitted_by.getD "", boolStr r.anonymous, r.created_at]

/-- The full table written by `iter_csv`: the header row chunk followed by
one row chunk per response, in order. -/
def exportTable (questions : List Question) (responses : List Response) :
    List (List String) :=
  headerRow questions :: responses.map (rowFor questions)

/-! ### Claim-side restatements for the exporter -/

/-- Claim-side restatement of the per-response answer map, for comparison
with `ansDict`: the value for key `k` is the value of the last answer
entry whose key resolves to `k` ("later entries overwrite earlier ones on
key collision"), read with Python `get` semantics. -/
def specAnswerLookup (answers : List Ans) (k : Option String) : Option String :=
  match lastWins (answers.map (fun a => (ansKey a, a.value))) k with
  | some v => v
  | none => none

/-- Claim-side restatement of the exported cell, for comparison with
`cellFor`: the map's value for the question's `id`, else the map's value
for the question's `text`, else the empty string. -/
def specCell (answers : List Ans) (q : Question) : String :=
  match specAnswerLookup answers (some q.id) with
  | some v => v
  | none =>
    match specAnswerLookup answers (some q.text) with
    | some v => v
    | none => ""

/-- Claim-side restatement of the header label, for comparison with
`headerLabel`: `export_header` if non-empty, else `text` if non-empty,
else `id`. -/
def specLabel (q : Question) : String :=
  match q.export_header with
  | some h => if h ≠ "" then h else if q.text ≠ "" then q.text else q.id
  | none => if q.text ≠ "" then q.text else q.id

deriving instance DecidableEq for Except

/-! ### Lemmas -/

theorem getA_insertA {κ α : Type} [DecidableEq κ] (d : PyDict κ α) (k k' : κ) (v : α) :
    getA (insertA d k v) k' = if k = k' then some v else getA d k' := by
  induction d with
  | nil => simp [insertA, getA]
  | cons p t ih =>
    by_cases hpk : p.1 = k
    · simp only [insertA, if_pos hpk, getA]
      by_cases hk : k = k'
      · simp [hpk, hk]
      · have : ¬ p.1 = k' := by rw [hpk]; exact hk
        simp [this, hk]
    · simp only [insertA, if_neg hpk, getA]
      by_cases hp : p.1 = k'
      · have : ¬ k = k' := fun h => hpk (by rw [hp, h])
        simp [hp, this]
      · simp [hp, ih]

theorem insertA_of_not_mem {κ α : Type} [DecidableEq κ] {d : PyDict κ α} {k : κ} (v : α)
    (h : k ∉ keysA d) : insertA d k v = d ++ [(k, v)] := by
  induction d with
  | nil => simp [insertA]
  | cons p t ih =>
    simp only [keysA, List.map_cons, List.mem_cons] at h
    push_neg at h
    have hp : ¬ p.1 = k := fun hh => h.1 hh.symm
    simp only [insertA, if_neg hp, List.cons_append]
    rw [ih h.2]

theorem keysA_append {κ α : Type} (d e : PyDict κ α) :
    keysA (d ++ e) = keysA d ++ keysA e := by
  simp [keysA]

theorem keysA_insertA_of_mem {κ α : Type} [DecidableEq κ] {d : PyDict κ α} {k : κ} (v : α)
    (h : k ∈ keysA d) : keysA (insertA d k v) = keysA d := by
  induction d with
  | nil => simp [keysA] at h
  | cons p t ih =>
    by_cases hpk : p.1 = k
    · simp [insertA, if_pos hpk, keysA]
    · simp only [keysA, List.map_cons, List.mem_cons] at h
      rcases h with h | h
      · exact absurd h.symm hpk
      · simp only [insertA, if_neg hpk, keysA, List.map_cons]
        congr 1
        exact ih h

theorem nodup_keysA_insertA {κ α : Type} [DecidableEq κ] {d : PyDict κ α} {k : κ} {v : α}
    (h : (keysA d).Nodup) : (keysA (insertA d k v)).Nodup := by
  by_cases hk : k ∈ keysA d
  · rw [keysA_insertA_of_mem v hk]; exact h
  · rw [insertA_of_not_mem v hk, keysA_append]
    simp only [keysA, List.map_cons, List.map_nil]
    exact List.Nodup.append h (List.nodup_singleton k) (by
      intro a ha hb
      simp only [List.mem_singleton] at hb
      subst hb
      exact hk ha)

theorem nodup_keysA_insFold {κ α : Type} [DecidableEq κ] (ps : List (κ × α)) :
    ∀ d : PyDict κ α, (keysA d).Nodup → (keysA (insFold d ps)).Nodup := by
  induction ps with
  | nil => intro d h; simpa [insFold] using h
  | cons p t ih =>
    intro d h
    simpa [insFold] using ih (insertA d p.1 p.2) (nodup_keysA_insertA h)

theorem insFold_of_fresh {κ α : Type} [DecidableEq κ] (ps : List (κ × α)) :
    ∀ d : PyDict κ α, (∀ k ∈ keysA ps, k ∉ keysA d) → (keysA ps).Nodup →
      insFold d ps = d ++ ps := by
  induction ps with
  | nil => intro d _ _; simp [insFold]
  | cons p t ih =>
    intro d hfresh hnd
    simp only [keysA, List.map_cons, List.nodup_cons] at hnd
    have hp : p.1 ∉ keysA d := hfresh p.1 (by simp [keysA])
    have step : insertA d p.1 p.2 = d ++ [p] := by
      rw [insertA_of_not_mem p.2 hp]
    have hfresh' : ∀ k ∈ keysA t, k ∉ keysA (d ++ [p]) := by
      intro k hk
      rw [keysA_append]
      simp only [List.mem_append]
      push_neg
      refine ⟨hfresh k (by simp [keysA]; right; exact (by simpa [keysA] using hk)), ?_⟩
      simp only [keysA, List.map_cons, List.map_nil, List.mem_singleton]
      intro hkp
      exact hnd.1 (by simpa [keysA, hkp] using hk)
    have := ih (d ++ [p]) hfresh' hnd.2
    calc insFold d (p :: t) = insFold (insertA d p.1 p.2) t := by simp [insFold]
      _ = insFold (d ++ [p]) t := by rw [step]
      _ = (d ++ [p]) ++ t := this
      _ = d ++ p :: t := by simp

theorem getA_insFold {κ α : Type} [DecidableEq κ] (ps : List (κ × α)) :
    ∀ (d : PyDict κ α) (k : κ), getA (insFold d ps) k =
      match lastWins ps k with
      | some v => some v
      | none => getA d k := by
  induction ps with
  | nil => intro d k; simp [insFold, lastWins]
  | cons p t ih =>
    intro d k
    have hstep : insFold d (p :: t) = insFold (insertA d p.1 p.2) t := by simp [insFold]
    rw [hstep, ih]
    simp only [lastWins]
    cases htail : lastWins t k with
    | some v => simp
    | none =>
      simp only [getA_insertA]
      by_cases hp : p.1 = k
      · simp [hp]
      · have : ¬ p.1 = k := hp
        simp [this]

theorem lastWins_eq_none_of_not_mem {κ α : Type} [DecidableEq κ] {ps : List (κ × α)} {k : κ}
    (h : k ∉ keysA ps) : lastWins ps k = none := by
  induction ps with
  | nil => simp [lastWins]
  | cons p t ih =>
    simp only [keysA, List.map_cons, List.mem_cons] at h
    push_neg at h
    have hp : ¬ p.1 = k := fun hh => h.1 hh.symm
    simp [lastWins, ih h.2, hp]

theorem lastWins_const {κ α : Type} [DecidableEq κ] {ps : List (κ × α)} {k : κ} {v : α}
    (hval : ∀ p ∈ ps, p.2 = v) (hmem : k ∈ keysA ps) : lastWins ps k = some v := by
  induction ps with
  | nil => simp [keysA] at hmem
  | cons p t ih =>
    simp only [keysA, List.map_cons, List.mem_cons] at hmem
    simp only [lastWins]
    cases htail : lastWins t k with
    | some w =>
      have : w = v := by
        have hmemt : k ∈ keysA t := by
          by_contra hc
          rw [lastWins_eq_none_of_not_mem hc] at htail
          exact Option.noConfusion htail
        have := ih (fun p hp => hval p (List.mem_cons_of_mem _ hp)) hmemt
        rw [this] at htail
        exact (Option.some.injEq _ _ ▸ htail.symm)
      rw [this]
    | none =>
      rcases hmem with hmem | hmem
      · simp only [hmem.symm ▸ (rfl : k = k)]
        have : p.1 = k := hmem.symm
        simp [this, hval p (List.mem_cons_self p t)]
      · have : k ∈ keysA t := hmem
        rw [ih (fun p hp => hval p (List.mem_cons_of_mem _ hp)) this] at htail
        exact Option.noConfusion htail

theorem getA_mem_keysA {κ α : Type} [DecidableEq κ] {ps : PyDict κ α} {k : κ} {v : α}
    (h : getA ps k = some v) : k ∈ keysA ps := by
  induction ps with
  | nil => simp [getA] at h
  | cons p t ih =>
    simp only [getA] at h
    by_cases hp : p.1 = k
    · simp [keysA, hp.symm]
    · simp only [if_neg hp] at h
      simp only [keysA, List.map_cons, List.mem_cons]
      exact Or.inr (ih h)

theorem lastWins_eq_getA_of_nodup {κ α : Type} [DecidableEq κ] {ps : PyDict κ α}
    (h : (keysA ps).Nodup) (k : κ) : lastWins ps k = getA ps k := by
  induction ps with
  | nil => rfl
  | cons p t ih =>
    simp only [keysA, List.map_cons, List.nodup_cons] at h
    simp only [lastWins, getA, ih h.2]
    cases ht : getA t k with
    | some v =>
      have hk : k ∈ keysA t := getA_mem_keysA ht
      have hp : ¬ p.1 = k := fun hh => h.1 (hh ▸ hk)
      simp [hp]
    | none => rfl

theorem getA_distinctColStep (r : PyDict DKey DVal) (d : PyDict DKey (List DVal))
    (c0 c : DKey) :
    getA (distinctColStep r d c0) c =
      if c = c0 then (getA d c).map (fun l => distinctStep l (pyRowGet r c0)) else getA d c := by
  unfold distinctColStep
  cases h0 : getA d c0 with
  | none =>
    by_cases hc : c = c0
    · subst hc; simp [h0]
    · simp [hc]
  | some l =>
    by_cases hc : c = c0
    · subst hc
      have hmap : (getA d c).map (fun l => distinctStep l (pyRowGet r c)) =
          some (distinctStep l (pyRowGet r c)) := by rw [h0]; rfl
      rw [hmap]
      simp only [h0]
      unfold distinctStep
      split_ifs with hcond
      · simp [getA_insertA]
      · exact h0
    · simp only [h0]
      split_ifs with hcond
      · rw [getA_insertA]
        have hne : ¬ c0 = c := fun hh => hc hh.symm
        simp [hne]
      · rfl

theorem getA_innerDistinctFold (cols : List DKey) (hnd : cols.Nodup)
    (r : PyDict DKey DVal) (c : DKey) :
    ∀ d : PyDict DKey (List DVal),
      getA (cols.foldl (distinctColStep r) d) c =
        if c ∈ cols then (getA d c).map (fun l => distinctStep l (pyRowGet r c)) else getA d c := by
  induction cols with
  | nil => intro d; simp
  | cons c0 cs ih =>
    intro d
    simp only [List.nodup_cons] at hnd
    rw [List.foldl_cons, ih hnd.2, getA_distinctColStep]
    by_cases hcs : c ∈ cs
    · have hne : ¬ c = c0 := fun hh => hnd.1 (hh ▸ hcs)
      simp [hcs, hne, List.mem_cons]
    · by_cases hc0 : c = c0
      · subst hc0
        simp [hcs, List.mem_cons]
      · simp [hcs, hc0, List.mem_cons]

theorem getA_outerDistinctFold (cols : List DKey) (hnd : cols.Nodup) (c : DKey)
    (rows : List (PyDict DKey DVal)) :
    ∀ d : PyDict DKey (List DVal),
      getA (rows.foldl (fun d r => cols.foldl (distinctColStep r) d) d) c =
        if c ∈ cols then
          (getA d c).map (fun l => (rows.map (fun r => pyRowGet r c)).foldl distinctStep l)
        else getA d c := by
  induction rows with
  | nil =>
    intro d
    by_cases hc : c ∈ cols
    · simp only [List.foldl_nil, hc, if_pos, List.map_nil]
      cases getA d c <;> simp
    · simp [hc]
  | cons r rs ih =>
    intro d
    rw [List.foldl_cons, ih, getA_innerDistinctFold cols hnd r c]
    by_cases hc : c ∈ cols
    · simp only [hc, if_pos]
      cases getA d c <;> simp
    · simp [hc]

theorem getA_initDistincts (cols : List DKey) (c : DKey) :
    ∀ d : PyDict DKey (List DVal),
      getA (cols.foldl (fun d c => insertA d c ([] : List DVal)) d) c =
        if c ∈ cols then some [] else getA d c := by
  induction cols with
  | nil => intro d; simp
  | cons c0 cs ih =>
    intro d
    rw [List.foldl_cons, ih]
    by_cases hcs : c ∈ cs
    · simp [hcs, List.mem_cons]
    · by_cases hc0 : c = c0
      · subst hc0
        simp [hcs, getA_insertA, List.mem_cons]
      · have : ¬ c0 = c := fun hh => hc0 hh.symm
        simp [hcs, hc0, getA_insertA, this, List.mem_cons]

theorem getA_buildDistincts (cols : List DKey) (hnd : cols.Nodup)
    (rows : List (PyDict DKey DVal)) (c : DKey) :
    getA (buildDistincts cols rows) c =
      if c ∈ cols then some ((rows.map (fun r => pyRowGet r c)).foldl distinctStep [])
      else none := by
  unfold buildDistincts
  rw [getA_outerDistinctFold cols hnd c rows, getA_initDistincts]
  by_cases hc : c ∈ cols
  · simp [hc]
  · simp [hc, getA]

theorem specFirstOccurrence_eq_foldl (vs : List DVal) :
    ∀ acc : List DVal, specFirstOccurrence acc vs = vs.foldl distinctStep acc := by
  induction vs with
  | nil => intro acc; rfl
  | cons v vs ih =>
    intro acc
    rw [List.foldl_cons]
    unfold specFirstOccurrence distinctStep
    split_ifs with h
    · exact ih (acc ++ [v])
    · exact ih acc

theorem mem_distinctStep {acc : List DVal} {w v : DVal} :
    v ∈ distinctStep acc w ↔ v ∈ acc ∨ (w ≠ DVal.missing ∧ w ∉ acc ∧ v = w) := by
  unfold distinctStep
  split_ifs with h
  · simp only [List.mem_append, List.mem_singleton]
    constructor
    · rintro (h1 | h1)
      · exact Or.inl h1
      · exact Or.inr ⟨h.1, h.2, h1⟩
    · rintro (h1 | h1)
      · exact Or.inl h1
      · exact Or.inr h1.2.2
  · constructor
    · exact Or.inl
    · rintro (h1 | ⟨hw1, hw2, rfl⟩)
      · exact h1
      · exact absurd ⟨hw1, hw2⟩ h

theorem mem_distinctStep_of_mem {acc : List DVal} {w v : DVal} (h : v ∈ acc) :
    v ∈ distinctStep acc w := by
  unfold distinctStep
  split_ifs
  · exact List.mem_append_left _ h
  · exact h

theorem mem_foldl_distinctStep (vs : List DVal) :
    ∀ (acc : List DVal) (v : DVal),
      v ∈ vs.foldl distinctStep acc ↔ v ∈ acc ∨ (v ≠ DVal.missing ∧ v ∈ vs) := by
  induction vs with
  | nil => intro acc v; simp
  | cons w ws ih =>
    intro acc v
    rw [List.foldl_cons, ih]
    constructor
    · rintro (hmem | hws)
      · rcases mem_distinctStep.mp hmem with h1 | ⟨hw1, _, rfl⟩
        · exact Or.inl h1
        · exact Or.inr ⟨hw1, List.mem_cons_self _ _⟩
      · exact Or.inr ⟨hws.1, List.mem_cons_of_mem _ hws.2⟩
    · rintro (hacc | ⟨hm, hv⟩)
      · exact Or.inl (mem_distinctStep_of_mem hacc)
      · rcases List.mem_cons.mp hv with rfl | hv
        · by_cases hw : v ∈ acc
          · exact Or.inl (mem_distinctStep_of_mem hw)
          · exact Or.inl (mem_distinctStep.mpr (Or.inr ⟨hm, hw, rfl⟩))
        · exact Or.inr ⟨hm, hv⟩

theorem nodup_distinctStep {acc : List DVal} {w : DVal} (h : acc.Nodup) :
    (distinctStep acc w).Nodup := by
  unfold distinctStep
  split_ifs with hc
  · exact List.Nodup.append h (List.nodup_singleton w) (by
      intro a ha hb
      simp only [List.mem_singleton] at hb
      subst hb
      exact hc.2 ha)
  · exact h

theorem nodup_foldl_distinctStep (vs : List DVal) :
    ∀ acc : List DVal, acc.Nodup → (vs.foldl distinctStep acc).Nodup := by
  induction vs with
  | nil => intro acc h; simpa using h
  | cons w ws ih =>
    intro acc h
    rw [List.foldl_cons]
    exact ih _ (nodup_distinctStep h)

/-! ### Structure of DictReader row dicts -/

theorem zip_map_fst_eq_take {α β : Type} (l1 : List α) :
    ∀ l2 : List β, (l1.zip l2).map Prod.fst = l1.take l2.length := by
  induction l1 with
  | nil => intro l2; simp
  | cons a t ih =>
    intro l2
    cases l2 with
    | nil => simp
    | cons b t2 => simp [ih]

theorem zip_take_self {α β : Type} (l1 : List α) :
    ∀ l2 : List β, l1.zip (l2.take l1.length) = l1.zip l2 := by
  induction l1 with
  | nil => intro l2; simp
  | cons a t ih =>
    intro l2
    cases l2 with
    | nil => simp
    | cons b t2 => simp [ih]

theorem keysA_zipList (fns record : List String) :
    keysA ((fns.zip record).map (fun p => (DKey.col p.1, DVal.cell p.2))) =
      (fns.take record.length).map DKey.col := by
  simp only [keysA, List.map_map]
  rw [show (Prod.fst ∘ fun p : String × String => (DKey.col p.1, DVal.cell p.2)) =
      DKey.col ∘ Prod.fst from rfl]
  rw [← List.map_map, zip_map_fst_eq_take]

theorem col_injective : Function.Injective DKey.col := by
  intro a b h
  injection h

theorem nodup_keysA_zipList (fns record : List String) (hnd : fns.Nodup) :
    (keysA ((fns.zip record).map (fun p => (DKey.col p.1, DVal.cell p.2)))).Nodup := by
  rw [keysA_zipList]
  exact ((hnd.sublist (List.take_sublist _ _)).map col_injective : _)

theorem zipDict_eq (fns record : List String) (hnd : fns.Nodup) :
    zipDict fns record = (fns.zip record).map (fun p => (DKey.col p.1, DVal.cell p.2)) := by
  unfold zipDict
  rw [insFold_of_fresh _ [] (by intro k _; simp [keysA]) (nodup_keysA_zipList fns record hnd)]
  simp

theorem nodup_keysA_zipDict (fns record : List String) :
    (keysA (zipDict fns record)).Nodup :=
  nodup_keysA_insFold _ [] (by simp [keysA])

theorem nodup_keysA_dictRow (fns record : List String) :
    (keysA (dictRow fns record)).Nodup := by
  unfold dictRow
  split_ifs with h1 h2
  · exact nodup_keysA_insertA (nodup_keysA_zipDict fns record)
  · exact nodup_keysA_insFold _ _ (nodup_keysA_zipDict fns record)
  · exact nodup_keysA_zipDict fns record

theorem keysA_dictRow (fns record : List String) (hnd : fns.Nodup)
    (hlen : record.length ≤ fns.length) :
    keysA (dictRow fns record) = fns.map DKey.col := by
  have hkb : keysA (zipDict fns record) = (fns.take record.length).map DKey.col := by
    rw [zipDict_eq fns record hnd, keysA_zipList]
  unfold dictRow
  rw [if_neg (by omega : ¬ fns.length < record.length)]
  by_cases hlt : record.length < fns.length
  · rw [if_pos hlt]
    have hdisj : ∀ k ∈ keysA ((fns.drop record.length).map
        (fun c => (DKey.col c, DVal.missing))), k ∉ keysA (zipDict fns record) := by
      intro k hk
      simp only [keysA, List.map_map] at hk
      rw [show (Prod.fst ∘ fun c : String => (DKey.col c, DVal.missing)) = DKey.col
        from rfl, List.mem_map] at hk
      obtain ⟨a, ha, rfl⟩ := hk
      rw [hkb, List.mem_map]
      rintro ⟨b, hb, hba⟩
      have hab : a = b := (col_injective hba).symm
      subst hab
      exact (List.disjoint_take_drop hnd (le_refl record.length)) hb ha
    have hdnd : (keysA ((fns.drop record.length).map
        (fun c => (DKey.col c, DVal.missing)))).Nodup := by
      simp only [keysA, List.map_map]
      rw [show (Prod.fst ∘ fun c : String => (DKey.col c, DVal.missing)) = DKey.col from rfl]
      exact (hnd.sublist (List.drop_sublist _ _)).map col_injective
    rw [insFold_of_fresh _ _ hdisj hdnd, keysA_append, hkb]
    simp only [keysA, List.map_map]
    rw [show (Prod.fst ∘ fun c : String => (DKey.col c, DVal.missing)) = DKey.col from rfl]
    rw [← List.map_append, List.take_append_drop]
  · rw [if_neg hlt]
    have : record.length = fns.length := by omega
    rw [hkb, this, List.take_length]

theorem get_mem_take {α : Type} (l : List α) :
    ∀ (n i : Nat) (h : i < l.length), i < n → l.get ⟨i, h⟩ ∈ l.take n := by
  induction l with
  | nil => intro n i h _; simp at h
  | cons a t ih =>
    intro n i h hn
    cases n with
    | zero => omega
    | succ m =>
      cases i with
      | zero => simp
      | succ j =>
        simp only [List.take_succ_cons, List.mem_cons]
        exact Or.inr (ih m j (by simpa using h) (by omega))

theorem getA_zipList_pos (fns : List String) :
    ∀ (record : List String) (i : Nat) (hf : i < fns.length) (hr : i < record.length),
      fns.Nodup →
      getA ((fns.zip record).map (fun p => (DKey.col p.1, DVal.cell p.2)))
        (DKey.col (fns.get ⟨i, hf⟩)) = some (DVal.cell (record.get ⟨i, hr⟩)) := by
  induction fns with
  | nil => intro record i hf _ _; simp at hf
  | cons f t ih =>
    intro record i hf hr hnd
    cases record with
    | nil => simp at hr
    | cons r0 rt =>
      simp only [List.nodup_cons] at hnd
      cases i with
      | zero => simp [getA]
      | succ j =>
        have hf' : j < t.length := by simpa using hf
        have hr' : j < rt.length := by simpa using hr
        have hstep : (f :: t).get ⟨j + 1, hf⟩ = t.get ⟨j, hf'⟩ := rfl
        have hne : ¬ (DKey.col f = DKey.col (t.get ⟨j, hf'⟩)) := by
          intro hcol
          exact hnd.1 (col_injective hcol ▸ List.get_mem t j hf')
        simp only [List.zip_cons_cons, List.map_cons, getA, hstep, if_neg hne]
        exact ih rt j hf' hr' hnd.2

theorem getA_dictRow_pos (fns record : List String) (hnd : fns.Nodup) (i : Nat)
    (hf : i < fns.length) (hr : i < record.length) :
    getA (dictRow fns record) (DKey.col (fns.get ⟨i, hf⟩)) =
      some (DVal.cell (record.get ⟨i, hr⟩)) := by
  have hbase : getA (zipDict fns record) (DKey.col (fns.get ⟨i, hf⟩)) =
      some (DVal.cell (record.get ⟨i, hr⟩)) := by
    rw [zipDict_eq fns record hnd]
    exact getA_zipList_pos fns record i hf hr hnd
  unfold dictRow
  split_ifs with h1 h2
  · rw [getA_insertA, if_neg (by simp : ¬ DKey.rest = DKey.col (fns.get ⟨i, hf⟩))]
    exact hbase
  · rw [getA_insFold]
    have hnot : DKey.col (fns.get ⟨i, hf⟩) ∉ keysA ((fns.drop record.length).map
        (fun c => (DKey.col c, DVal.missing))) := by
      simp only [keysA, List.map_map]
      rw [show (Prod.fst ∘ fun c : String => (DKey.col c, DVal.missing)) = DKey.col
        from rfl, List.mem_map]
      rintro ⟨b, hb, hba⟩
      have hfb : fns.get ⟨i, hf⟩ ∈ fns.take record.length := get_mem_take fns _ i hf hr
      have hab : fns.get ⟨i, hf⟩ = b := (col_injective hba).symm
      exact (List.disjoint_take_drop hnd (le_refl record.length)) hfb (hab ▸ hb)
    rw [lastWins_eq_none_of_not_mem hnot]
    exact hbase
  · exact hbase

theorem getA_dictRow_trailing (fns record : List String) (c : String)
    (hc : c ∈ fns.drop record.length) :
    getA (dictRow fns record) (DKey.col c) = some DVal.missing := by
  have hlt : record.length < fns.length := by
    by_contra h
    rw [List.drop_eq_nil_of_le (by omega)] at hc
    exact (List.not_mem_nil c) hc
  unfold dictRow
  rw [if_neg (by omega : ¬ fns.length < record.length), if_pos hlt, getA_insFold]
  have hlast : lastWins ((fns.drop record.length).map
      (fun c => (DKey.col c, DVal.missing))) (DKey.col c) = some DVal.missing := by
    apply lastWins_const
    · intro p hp
      simp only [List.mem_map] at hp
      obtain ⟨a, _, rfl⟩ := hp
      rfl
    · simp only [keysA, List.map_map]
      rw [show (Prod.fst ∘ fun c : String => (DKey.col c, DVal.missing)) = DKey.col
        from rfl, List.mem_map]
      exact ⟨c, hc, rfl⟩
  rw [hlast]

theorem getA_dictRow_extras_invisible (fns record : List String) (c : String) :
    getA (dictRow fns record) (DKey.col c) =
      getA (dictRow fns (record.take fns.length)) (DKey.col c) := by
  by_cases h : fns.length < record.length
  · have hlen : (record.take fns.length).length = fns.length := by
      rw [List.length_take]; omega
    unfold dictRow
    rw [if_pos h, if_neg (by omega : ¬ fns.length < (record.take fns.length).length),
      if_neg (by omega : ¬ (record.take fns.length).length < fns.length)]
    rw [getA_insertA, if_neg (by simp : ¬ DKey.rest = DKey.col c)]
    unfold zipDict
    rw [zip_take_self]
  · rw [List.take_of_length_le (by omega)]

theorem rest_not_mem_keysA_zipList (fns record : List String) :
    DKey.rest ∉ keysA ((fns.zip record).map (fun p => (DKey.col p.1, DVal.cell p.2))) := by
  simp only [keysA, List.map_map, List.mem_map, Function.comp]
  rintro ⟨p, _, hp⟩
  exact DKey.noConfusion hp

theorem rest_not_mem_keysA_missingList (fns : List String) (n : Nat) :
    DKey.rest ∉ keysA ((fns.drop n).map (fun c => (DKey.col c, DVal.missing))) := by
  simp only [keysA, List.map_map, List.mem_map, Function.comp]
  rintro ⟨c, _, hc⟩
  exact DKey.noConfusion hc

theorem getA_dictRow_rest (fns record : List String) :
    getA (dictRow fns record) DKey.rest =
      if fns.length < record.length then some (DVal.extras (record.drop fns.length))
      else none := by
  unfold dictRow zipDict
  split_ifs with h1 h2
  · rw [getA_insertA]
    simp
  · rw [getA_insFold,
      lastWins_eq_none_of_not_mem (rest_not_mem_keysA_missingList fns record.length),
      getA_insFold, lastWins_eq_none_of_not_mem (rest_not_mem_keysA_zipList fns record)]
    rfl
  · rw [getA_insFold, lastWins_eq_none_of_not_mem (rest_not_mem_keysA_zipList fns record)]
    rfl

/-! ### Shape of `upload` results -/

theorem nodup_keysA_parseRows {records : List (List String)} {r : PyDict DKey DVal}
    (h : r ∈ parseRows records) : (keysA r).Nodup := by
  unfold parseRows at h
  cases records with
  | nil => exact absurd h (List.not_mem_nil r)
  | cons fns body =>
    rw [List.mem_map] at h
    obtain ⟨rec, _, rfl⟩ := h
    exact nodup_keysA_dictRow fns rec

theorem upload_ok_of (filename : String) (records : List (List String))
    (r0 : PyDict DKey DVal) (rest : List (PyDict DKey DVal))
    (hext : lowerEndsWithCsv filename = true)
    (hrows : parseRows records = r0 :: rest) :
    upload filename records =
      .ok ⟨keysA r0, (r0 :: rest).length, buildDistincts (keysA r0) (r0 :: rest)⟩ := by
  unfold upload
  rw [hext, if_neg (by simp), hrows]

theorem upload_ok_inv {filename : String} {records : List (List String)} {ds : UploadResult}
    (h : upload filename records = .ok ds) :
    lowerEndsWithCsv filename = true ∧
    ∃ r0 rest, parseRows records = r0 :: rest ∧
      ds.columns = keysA r0 ∧ ds.rowCount = (r0 :: rest).length ∧
      ds.distincts = buildDistincts (keysA r0) (r0 :: rest) := by
  unfold upload at h
  by_cases hext : lowerEndsWithCsv filename = false
  · rw [if_pos hext] at h
    exact absurd h (by simp)
  · rw [if_neg hext] at h
    have hext' : lowerEndsWithCsv filename = true := by
      cases hx : lowerEndsWithCsv filename
      · exact absurd hx hext
      · rfl
    refine ⟨hext', ?_⟩
    cases hrows : parseRows records with
    | nil =>
      rw [hrows] at h
      exact absurd h (by simp)
    | cons r0 rest =>
      rw [hrows] at h
      refine ⟨r0, rest, rfl, ?_⟩
      cases h
      exact ⟨rfl, rfl, rfl⟩

theorem getA_ansDict (answers : List Ans) (k : Option String) :
    getA (ansDict answers) k =
      lastWins (answers.map (fun a => (ansKey a, a.value))) k := by
  unfold ansDict
  rw [getA_insFold]
  cases lastWins (answers.map (fun a => (ansKey a, a.value))) k <;> rfl

theorem pyGetFlat_ansDict (answers : List Ans) (k : Option String) :
    pyGetFlat (ansDict answers) k = specAnswerLookup answers k := by
  unfold pyGetFlat specAnswerLookup
  rw [getA_ansDict]

theorem cellFor_eq_specCell (answers : List Ans) (q : Question) :
    cellFor (ansDict answers) q = specCell answers q := by
  unfold cellFor specCell
  rw [pyGetFlat_ansDict, pyGetFlat_ansDict]

/-! ### Claim theorems -/

/-- C7: for every upload, a declared filename that does not end in the
recognized tabular extension (compared case-insensitively) fails with
`UnsupportedFormat` regardless of the content (so before any parsing can
matter); otherwise content parsing into zero data rows fails with
`EmptyInput`; otherwise the analysis succeeds. -/
theorem upload_error_conditions (filename : String) (records : List (List String)) :
    (upload filename records = .error .UnsupportedFormat ↔
      lowerEndsWithCsv filename = false) ∧
    (upload filename records = .error .EmptyInput ↔
      lowerEndsWithCsv filename = true ∧ parseRows records = []) ∧
    ((∃ ds, upload filename records = .ok ds) ↔
      lowerEndsWithCsv filename = true ∧ parseRows records ≠ []) := by
  unfold upload
  by_cases hext : lowerEndsWithCsv filename = false
  · simp [hext]
  · have hext' : lowerEndsWithCsv filename = true := by
      cases hx : lowerEndsWithCsv filename
      · exact absurd hx hext
      · rfl
    rw [if_neg hext]
    cases hrows : parseRows records with
    | nil => simp [hext', hrows]
    | cons r0 rest => simp [hext', hrows]

/-- C1 counterexample: two uploads whose content parses into at least one
data row, yet whose returned columns differ from the header row H — one
for each proviso of the amended claim. With header `["a"]` and first data
row `["x","y"]` (longer than the header), `DictReader` keeps the extra
field under the restkey `None`, and `columns = list(rows[0].keys())` is
`["a", None]`; with duplicate header `["a","a"]` and row `["1","2"]`,
`dict(zip(...))` collapses the duplicate key and `columns` is `["a"]`.
`rowCount` is 1, as claimed, in both cases. -/
theorem upload_columns_counterexample :
    (upload "d.csv" [["a"], ["x", "y"]] =
      .ok ⟨[DKey.col "a", DKey.rest], 1,
        [(DKey.col "a", [DVal.cell "x"]), (DKey.rest, [DVal.extras ["y"]])]⟩ ∧
     ([DKey.col "a", DKey.rest] : List DKey) ≠ ["a"].map DKey.col) ∧
    (upload "h.csv" [["a", "a"], ["1", "2"]] =
      .ok ⟨[DKey.col "a"], 1, [(DKey.col "a", [DVal.cell "2"])]⟩ ∧
     ([DKey.col "a"] : List DKey) ≠ ["a", "a"].map DKey.col) :=
  ⟨⟨by decide, by decide⟩, ⟨by decide, by decide⟩⟩

/-- C1 (amended): for every uploaded file whose content parses into at
least one data row, the upload returns `rowCount` equal to the number of
non-blank data rows, unconditionally; and, provided the header names are
pairwise distinct and the first data row has no more fields than the
header, it returns `columns` equal to the header row in its original
left-to-right order. -/
theorem upload_rowCount_and_columns (filename : String) (fns : List String)
    (body : List (List String)) (r0 : List String) (body' : List (List String))
    (hext : lowerEndsWithCsv filename = true)
    (hfilter : body.filter (fun r => decide (r ≠ [])) = r0 :: body') :
    ∃ ds, upload filename (fns :: body) = .ok ds ∧
      ds.rowCount = (body.filter (fun r => decide (r ≠ []))).length ∧
      (fns.Nodup → r0.length ≤ fns.length → ds.columns = fns.map DKey.col) := by
  have hrows : parseRows (fns :: body) = dictRow fns r0 :: body'.map (dictRow fns) := by
    show (body.filter (fun r => decide (r ≠ []))).map (dictRow fns) =
      dictRow fns r0 :: body'.map (dictRow fns)
    rw [hfilter, List.map_cons]
  refine ⟨_, upload_ok_of filename _ _ _ hext hrows, ?_, ?_⟩
  · rw [hfilter]
    simp
  · intro hnd hlen
    exact keysA_dictRow fns r0 hnd hlen

/-- Witness for C1 (amended) at the spec's own example upload, with the
column provisos discharged concretely. -/
theorem upload_rowCount_and_columns_witness :
    ∃ ds, upload "data.csv" [["name", "age"], ["Alice", "30"], ["Bob", "25"]] = .ok ds ∧
      ds.rowCount = ([["Alice", "30"], ["Bob", "25"]].filter
        (fun r => decide (r ≠ ([] : List String)))).length ∧
      ds.columns = ["name", "age"].map DKey.col := by
  obtain ⟨ds, h1, h2, h3⟩ := upload_rowCount_and_columns "data.csv" ["name", "age"]
    [["Alice", "30"], ["Bob", "25"]] ["Alice", "30"] [["Bob", "25"]]
    (by decide) (by decide)
  exact ⟨ds, h1, h2, h3 (by decide) (by decide)⟩

/-- C8 counterexample: under header `["a"]`, the long row `["1","2","3"]`
does not parse to a mapping keyed by the header columns with the extras
dropped — `DictReader` keeps the extra fields under the non-header
restkey `None`, so the row dict has the extra key `None` holding
`["2","3"]`. -/
theorem dictRow_extras_kept_counterexample :
    getA (dictRow ["a"] ["1", "2", "3"]) DKey.rest =
      some (DVal.extras ["2", "3"]) ∧
    keysA (dictRow ["a"] ["1", "2", "3"]) ≠ ["a"].map DKey.col :=
  ⟨by decide, by decide⟩

/-- C8 (amended): `DictReader`-style row parsing yields, per data row, a
mapping in which (i) every header column beyond the row's field count
reads as missing, (ii) the value read at any header column is unaffected
by fields beyond the header length, (iii) a row with more fields than
headers keeps the extra fields under the non-header restkey `None`
(rather than dropping them), (iv) no restkey entry exists when the row is
not longer than the header, and (v) with pairwise-distinct header names,
header column `i` reads exactly the row's field `i` whenever the row
supplies it. -/
theorem dictRow_row_parsing (fns record : List String) :
    (∀ c ∈ fns.drop record.length,
      getA (dictRow fns record) (DKey.col c) = some DVal.missing) ∧
    (∀ c : String, getA (dictRow fns record) (DKey.col c) =
      getA (dictRow fns (record.take fns.length)) (DKey.col c)) ∧
    (fns.length < record.length →
      getA (dictRow fns record) DKey.rest =
        some (DVal.extras (record.drop fns.length))) ∧
    (record.length ≤ fns.length →
      getA (dictRow fns record) DKey.rest = none) ∧
    (fns.Nodup → ∀ (i : Nat) (hf : i < fns.length) (hr : i < record.length),
      getA (dictRow fns record) (DKey.col (fns.get ⟨i, hf⟩)) =
        some (DVal.cell (record.get ⟨i, hr⟩))) :=
  ⟨fun c hc => getA_dictRow_trailing fns record c hc,
   fun c => getA_dictRow_extras_invisible fns record c,
   fun hlt => by rw [getA_dictRow_rest, if_pos hlt],
   fun hle => by rw [getA_dictRow_rest, if_neg (by omega)],
   fun hnd i hf hr => getA_dictRow_pos fns record hnd i hf hr⟩

/-- Witness for C8 (amended): a short row `["1"]` under header `["a","b"]`
reads missing at `b`, `1` at `a`, and has no restkey entry; a long row
`["1","2"]` under header `["a"]` reads the same at `a` as its truncation
and keeps `["2"]` under the restkey. -/
theorem dictRow_row_parsing_witness :
    getA (dictRow ["a", "b"] ["1"]) (DKey.col "b") = some DVal.missing ∧
    getA (dictRow ["a"] ["1", "2"]) (DKey.col "a") =
      getA (dictRow ["a"] (["1", "2"].take 1)) (DKey.col "a") ∧
    getA (dictRow ["a"] ["1", "2"]) DKey.rest = some (DVal.extras ["2"]) ∧
    getA (dictRow ["a", "b"] ["1"]) DKey.rest = none ∧
    getA (dictRow ["a", "b"] ["1"]) (DKey.col "a") = some (DVal.cell "1") :=
  ⟨(dictRow_row_parsing ["a", "b"] ["1"]).1 "b" (by decide),
   (dictRow_row_parsing ["a"] ["1", "2"]).2.1 "a",
   (dictRow_row_parsing ["a"] ["1", "2"]).2.2.1 (by decide),
   (dictRow_row_parsing ["a", "b"] ["1"]).2.2.2.1 (by decide),
   (dictRow_row_parsing ["a", "b"] ["1"]).2.2.2.2 (by decide) 0 (by decide) (by decide)⟩

/-- C2: for every successful upload and every column of the returned
column list, the per-column distincts list has no duplicates, contains
exactly the non-null values observed in that column over the parsed rows,
and equals the first-occurrence deduplication of that column's value
sequence. -/
theorem upload_distincts_firstOccurrence (filename : String)
    (records : List (List String)) (ds : UploadResult)
    (h : upload filename records = .ok ds) (c : DKey) (hc : c ∈ ds.columns) :
    ∃ l, getA ds.distincts c = some l ∧ l.Nodup ∧
      (∀ v, v ∈ l ↔ v ≠ DVal.missing ∧
        v ∈ (parseRows records).map (fun r => pyRowGet r c)) ∧
      l = specFirstOccurrence [] ((parseRows records).map (fun r => pyRowGet r c)) := by
  obtain ⟨hext, r0, rest, hrows, hcols, hcount, hdist⟩ := upload_ok_inv h
  have hnd : (keysA r0).Nodup :=
    nodup_keysA_parseRows (by rw [hrows]; exact List.mem_cons_self _ _)
  rw [hcols] at hc
  have hget := getA_buildDistincts (keysA r0) hnd (r0 :: rest) c
  rw [if_pos hc] at hget
  refine ⟨_, by rw [hdist]; exact hget, ?_, ?_, ?_⟩
  · exact nodup_foldl_distinctStep _ [] List.nodup_nil
  · intro v
    rw [mem_foldl_distinctStep, hrows]
    simp
  · rw [specFirstOccurrence_eq_foldl, hrows]

/-- Witness for C2 at a column whose values are `[a, b, a, c]`: distinct
list `[a, b, c]`. -/
theorem upload_distincts_firstOccurrence_witness :
    ∃ l, getA ([(DKey.col "c0", [DVal.cell "a", DVal.cell "b", DVal.cell "c"])] :
        PyDict DKey (List DVal)) (DKey.col "c0") = some l ∧ l.Nodup ∧
      (∀ v, v ∈ l ↔ v ≠ DVal.missing ∧
        v ∈ (parseRows [["c0"], ["a"], ["b"], ["a"], ["c"]]).map
          (fun r => pyRowGet r (DKey.col "c0"))) ∧
      l = specFirstOccurrence []
        ((parseRows [["c0"], ["a"], ["b"], ["a"], ["c"]]).map
          (fun r => pyRowGet r (DKey.col "c0"))) :=
  upload_distincts_firstOccurrence "e.csv" [["c0"], ["a"], ["b"], ["a"], ["c"]]
    ⟨[DKey.col "c0"], 4, [(DKey.col "c0", [DVal.cell "a", DVal.cell "b", DVal.cell "c"])]⟩
    (by decide) (DKey.col "c0") (by decide)

/-- C3: every exported data row consists of, per question in order, the
cell obtained from the per-response answer map (keys `questionId` else
`id` else `text`, later entries overwriting earlier ones) looked up by
the question's `id`, else by its `text`, else the empty string — followed
by the three meta cells; no input makes this fail. -/
theorem export_row_cells (questions : List Question) (r : Response) :
    rowFor questions r =
      questions.map (specCell r.answers) ++
        [r.submitted_by.getD "", boolStr r.anonymous, r.created_at] := by
  unfold rowFor
  rw [show cellFor (ansDict r.answers) = specCell r.answers from
    funext (fun q => cellFor_eq_specCell r.answers q)]

/-- C4: the exported table always has `len(responses) + 1` rows (one
header plus one row per response), and every row — header and data alike —
has exactly `len(questions) + 3` cells. -/
theorem export_table_shape (questions : List Question) (responses : List Response) :
    (exportTable questions responses).length = responses.length + 1 ∧
    ∀ row ∈ exportTable questions responses, row.length = questions.length + 3 := by
  constructor
  · simp [exportTable]
  · intro row hrow
    rcases List.mem_cons.mp hrow with rfl | hrow
    · simp [headerRow]
    · rw [List.mem_map] at hrow
      obtain ⟨r, _, rfl⟩ := hrow
      simp [rowFor]

/-- Witness for C4 on the zero-question, zero-response survey: one header
row of exactly three (meta) cells. -/
theorem export_table_shape_witness :
    (exportTable [] []).length = 0 + 1 ∧
    (headerRow []).length = ([] : List Question).length + 3 :=
  ⟨(export_table_shape [] []).1,
   (export_table_shape [] []).2 (headerRow []) (by simp [exportTable])⟩

theorem headerLabel_getD (q : Question) : (headerLabel q).getD "" = specLabel q := by
  unfold headerLabel specLabel pyOrS
  cases q.export_header with
  | some h =>
    by_cases hh : h = ""
    · by_cases ht : q.text = ""
      · simp [hh, ht]
      · simp [hh, ht]
    · simp [hh]
  | none =>
    by_cases ht : q.text = ""
    · simp [ht]
    · simp [ht]

/-- C5: the export header labels each question, in survey order, by its
`export_header` if non-empty, else its `text` if non-empty, else its
`id`, and appends exactly the three fixed trailing meta headers. -/
theorem export_header_row (questions : List Question) :
    headerRow questions =
      questions.map specLabel ++ ["submitted_by", "anonymous", "created_at"] := by
  unfold headerRow
  simp only [headerLabel_getD]

/-- C9: an answer whose key resolves to the question's `id` but whose
stored value is null (equally: the key being absent altogether) is treated
exactly like a missing answer — the cell falls through to the
question-text lookup, whose result (empty if that too yields nothing) is
what gets emitted, so a null value never surfaces and can be shadowed by
a text-keyed entry. -/
theorem export_null_answer_falls_through (answers : List Ans) (q : Question)
    (h : getA (ansDict answers) (some q.id) = some none ∨
      getA (ansDict answers) (some q.id) = none) :
    cellFor (ansDict answers) q =
      (pyGetFlat (ansDict answers) (some q.text)).getD "" := by
  have hid : pyGetFlat (ansDict answers) (some q.id) = none := by
    unfold pyGetFlat
    rcases h with h | h <;> rw [h]
  unfold cellFor
  rw [hid]
  cases pyGetFlat (ansDict answers) (some q.text) <;> rfl

/-- Witness for C9: a null-valued answer keyed `q1` is shadowed by a
text-keyed answer carrying `30`. -/
theorem export_null_answer_falls_through_witness :
    cellFor (ansDict [⟨some "q1", none, none, none⟩, ⟨none, none, some "Age", some "30"⟩])
      ⟨"q1", "Age", none⟩ = "30" := by
  have h := export_null_answer_falls_through
    [⟨some "q1", none, none, none⟩, ⟨none, none, some "Age", some "30"⟩]
    ⟨"q1", "Age", none⟩ (Or.inl (by decide))
  rw [h]
  decide

theorem rate_limit_cond_iff (o : Option Int) (X : Prop) (c : Int) :
    (truthyLimit o = true ∧ X ∧ o.getD 0 ≤ c) ↔
      (∃ lim : Int, o = some lim ∧ lim ≠ 0 ∧ X ∧ lim ≤ c) := by
  cases o with
  | none => simp [truthyLimit]
  | some n =>
    simp only [truthyLimit, decide_eq_true_eq, Option.getD_some, Option.some.injEq]
    constructor
    · rintro ⟨h1, h2, h3⟩
      exact ⟨n, rfl, h1, h2, h3⟩
    · rintro ⟨lim, rfl, h1, h2, h3⟩
      exact ⟨h1, h2, h3⟩

/-- C6 counterexample: with `response_limit_per_user` specified as `0`, a
submitter identity present and 5 previously accepted responses (≥ the
limit), the claim demands `RateLimited`, but the code accepts — Python's
`if limit` treats the specified limit `0` as falsy and skips the check. -/
theorem submit_rate_limit_zero_counterexample :
    submit_response ⟨false, some 0⟩ ⟨some "u1", false⟩ 5 = .ok () ∧
    submit_response ⟨false, some 0⟩ ⟨some "u1", false⟩ 5 ≠ .error .RateLimited :=
  ⟨by decide, by decide⟩

/-- C6 (amended): submission is rejected with `AuthRequired` exactly when
`require_auth` holds and the response carries no (non-empty) submitter
identity and is not marked anonymous; otherwise it is rejected with
`RateLimited` exactly when the settings specify a nonzero
`response_limit_per_user`, the response carries a submitter identity, and
the count of previously accepted responses from that identity has reached
the limit; otherwise it is accepted unconditionally. -/
theorem submit_response_policy (settings : SubmitSettings) (payload : SubmitPayload)
    (priorCount : Nat) :
    (submit_response settings payload priorCount = .error .AuthRequired ↔
      settings.require_auth = true ∧ truthyStr payload.submitted_by = false ∧
        payload.anonymous = false) ∧
    (submit_response settings payload priorCount = .error .RateLimited ↔
      ¬(settings.require_auth = true ∧ truthyStr payload.submitted_by = false ∧
          payload.anonymous = false) ∧
        (∃ lim : Int, settings.response_limit_per_user = some lim ∧ lim ≠ 0 ∧
          truthyStr payload.submitted_by = true ∧ lim ≤ (priorCount : Int))) ∧
    (submit_response settings payload priorCount = .ok () ↔
      ¬(settings.require_auth = true ∧ truthyStr payload.submitted_by = false ∧
          payload.anonymous = false) ∧
        ¬(∃ lim : Int, settings.response_limit_per_user = some lim ∧ lim ≠ 0 ∧
          truthyStr payload.submitted_by = true ∧ lim ≤ (priorCount : Int))) := by
  have hiff := rate_limit_cond_iff settings.response_limit_per_user
    (truthyStr payload.submitted_by = true) (priorCount : Int)
  unfold submit_response
  split_ifs with hauth hrl
  · refine ⟨by simp [hauth], by simp [hauth], by simp [hauth]⟩
  · have hex := hiff.mp ⟨hrl.1, hrl.2.1, hrl.2.2⟩
    refine ⟨by simp [hauth], ?_, ?_⟩
    · constructor
      · intro _
        exact ⟨hauth, hex⟩
      · intro _
        rfl
    · simp [hex]
  · have hnex : ¬ (∃ lim : Int, settings.response_limit_per_user = some lim ∧ lim ≠ 0 ∧
        truthyStr payload.submitted_by = true ∧ lim ≤ (priorCount : Int)) :=
      fun hex => hrl (hiff.mpr hex)
    refine ⟨?_, by simp [hnex], ?_⟩
    · constructor
      · intro hcontra
        exact absurd hcontra (by simp)
      · intro hcond
        exact absurd hcond hauth
    · constructor
      · intro _
        exact ⟨hauth, hnex⟩
      · intro _
        rfl

/-- C10: whenever the per-user limit is falsy (`None` or `0`) or the
response carries no (non-empty) submitter identity, the rate-limit check
is skipped entirely: submission is never rejected with `RateLimited`,
whatever the prior response count. -/
theorem submit_no_rate_limit_when_falsy (settings : SubmitSettings)
    (payload : SubmitPayload) (priorCount : Nat)
    (h : truthyLimit settings.response_limit_per_user = false ∨
      truthyStr payload.submitted_by = false) :
    submit_response settings payload priorCount ≠ .error .RateLimited := by
  unfold submit_response
  split_ifs with hauth hrl
  · simp
  · exfalso
    rcases h with h | h
    · rw [hrl.1] at h
      exact Bool.noConfusion h
    · rw [hrl.2.1] at h
      exact Bool.noConfusion h
  · simp

/-- Witness for C10: limit `0` with 100 prior responses is still accepted,
never rate-limited. -/
theorem submit_no_rate_limit_when_falsy_witness :
    submit_response ⟨false, some 0⟩ ⟨some "u", false⟩ 100 ≠ .error .RateLimited :=
  submit_no_rate_limit_when_falsy ⟨false, some 0⟩ ⟨some "u", false⟩ 100
    (Or.inl (by decide))

/-- Witness for C7: a `.txt` upload is rejected as unsupported. -/
theorem upload_error_conditions_witness :
    upload "d.txt" [["a"], ["x"]] = .error .UnsupportedFormat :=
  (upload_error_conditions "d.txt" [["a"], ["x"]]).1.mpr (by decide)

/-- Witness for C6 (amended): limit 1, one prior response from the same
submitter, the next submission is rate-limited. -/
theorem submit_response_policy_witness :
    submit_response ⟨false, some 1⟩ ⟨some "u1", false⟩ 1 = .error .RateLimited :=
  (submit_response_policy ⟨false, some 1⟩ ⟨some "u1", false⟩ 1).2.1.mpr
    ⟨by simp, 1, rfl, by decide, by decide, by decide⟩

end SurveyPlatform
